import Mathlib

/-!
Shallow embedding of `beam_search.py` (beam-search decoding with MMR-driven
source-sentence gating) and proofs about its specified properties.

Modelling conventions:
* Python floats are modelled as `ℚ` (exact arithmetic over the same field
  operations the code performs).
* numpy vectors are `List ℚ`; token ids are `ℤ` (Python ints).
* The external decoder model, vocabulary ids and the external similarity
  scorer are parameters (`Model`), exactly the interfaces `run_beam_search`
  consumes.
* `FLAGS.*` configuration values are gathered in a `Config` record.
* `Hypothesis.similarity` is `0.` (a scalar) at construction and a numpy
  per-sentence vector after `update_similarity_and_mmr`; we model this
  dynamically-typed field as `ℚ ⊕ List ℚ` (`Sum.inl 0` is the scalar zero).
* `Hypothesis.mmr` is `None` when `FLAGS.pg_mmr` is off, a vector otherwise:
  `Option (List ℚ)`.
-/

namespace BeamSearchPy

/-- Configuration flags read by `beam_search.py` (`FLAGS.*`). -/
structure Config where
  beam_size : ℕ
  max_dec_steps : ℕ
  min_dec_steps : ℕ
  pg_mmr : Bool
  mute_k : ℤ
  lambda_val : ℚ
  retain_mmr_values : Bool

/-- The `Hypothesis` class (beam_search.py lines 45-101). -/
structure Hypothesis (σ α : Type) where
  tokens : List ℤ
  log_probs : List ℚ
  state : σ
  attn_dists : List α
  p_gens : List ℚ
  coverage : α
  similarity : ℚ ⊕ List ℚ
  mmr : Option (List ℚ)

instance {σ α : Type} [Inhabited σ] [Inhabited α] : Inhabited (Hypothesis σ α) :=
  ⟨⟨[], [], default, [], [], default, Sum.inl 0, none⟩⟩

/-- `Hypothesis.__init__` (lines 48-66): sets the listed fields and
`self.similarity = 0.`. -/
def Hypothesis.make {σ α : Type} (tokens : List ℤ) (log_probs : List ℚ) (state : σ)
    (attn_dists : List α) (p_gens : List ℚ) (coverage : α)
    (mmr : Option (List ℚ)) : Hypothesis σ α :=
  ⟨tokens, log_probs, state, attn_dists, p_gens, coverage, Sum.inl 0, mmr⟩

/-- `Hypothesis.extend` (lines 68-87): returns a NEW hypothesis built by
`Hypothesis.__init__` with one token appended to each per-step list. -/
def Hypothesis.extend {σ α : Type} (h : Hypothesis σ α) (token : ℤ) (log_prob : ℚ)
    (state : σ) (attn_dist : α) (p_gen : ℚ) (coverage : α)
    (mmr : Option (List ℚ)) : Hypothesis σ α :=
  Hypothesis.make (h.tokens ++ [token]) (h.log_probs ++ [log_prob]) state
    (h.attn_dists ++ [attn_dist]) (h.p_gens ++ [p_gen]) coverage mmr

/-- `Hypothesis.latest_token` (lines 89-91): `self.tokens[-1]`
(total model: default `0` for the never-occurring empty list). -/
def Hypothesis.latest_token {σ α : Type} (h : Hypothesis σ α) : ℤ :=
  h.tokens.getLastD 0

/-- `Hypothesis.log_prob` (lines 93-96): `sum(self.log_probs)`. -/
def Hypothesis.log_prob {σ α : Type} (h : Hypothesis σ α) : ℚ :=
  h.log_probs.sum

/-- `Hypothesis.avg_log_prob` (lines 98-101): `self.log_prob / len(self.tokens)`. -/
def Hypothesis.avg_log_prob {σ α : Type} (h : Hypothesis σ α) : ℚ :=
  h.log_prob / (h.tokens.length : ℚ)

/-- Descending-key comparison used by `sort_hyps`. -/
def hyp_ge {σ α : Type} (a b : Hypothesis σ α) : Prop :=
  b.avg_log_prob ≤ a.avg_log_prob

instance {σ α : Type} : DecidableRel (@hyp_ge σ α) :=
  fun a b => inferInstanceAs (Decidable (_ ≤ _))

/-- `sort_hyps` (lines 390-392): `sorted(hyps, key=lambda h: h.avg_log_prob,
reverse=True)`. Python's `sorted` is a stable sort; a stable descending sort is
modelled by Mathlib's (stable) insertion sort under the reflexive-total
relation `hyp_ge`. -/
def sort_hyps {σ α : Type} (hyps : List (Hypothesis σ α)) : List (Hypothesis σ α) :=
  List.insertionSort hyp_ge hyps

/-- `calc_mmr_from_sim_and_imp` (lines 180-183):
`new_mmr = lambda_val*importances - (1-lambda_val)*similarity` followed by
`new_mmr = np.maximum(new_mmr, 0)`, elementwise over equal-length vectors. -/
def calc_mmr_from_sim_and_imp (lambda_val : ℚ) (similarity importances : List ℚ) :
    List ℚ :=
  let new_mmr := List.zipWith
    (fun imp s => lambda_val * imp - (1 - lambda_val) * s) importances similarity
  new_mmr.map (fun x => max x 0)

/-- `np.argsort` modelled as a deterministic stable sort of the index list
`[0, ..., n-1]` ascending by value (numpy's quicksort order on ties is
implementation-defined; any deterministic order realises the code). -/
def argsort (array : List ℚ) : List ℕ :=
  List.insertionSort (fun i j => array.getD i 0 ≤ array.getD j 0)
    (List.range array.length)

/-- `mute_all_except_top_k` (lines 185-197). `np.sum(array > 0)` counts the
strictly positive entries; `np.nonzero(array)` selects the indices of all
non-zero entries; `array.argsort()[::-1][:k]` selects the `k` indices of
largest value; the result holds `array[i]` (`retain_mmr_values`) or `1.` at
the selected indices and `0.` elsewhere. -/
def mute_all_except_top_k (cfg : Config) (array : List ℚ) (k : ℕ) : List ℚ :=
  let num_reservoirs_still_full := (array.filter (fun x => decide (0 < x))).length
  let selected_indices :=
    if num_reservoirs_still_full < k then
      (List.range array.length).filter (fun i => decide (array.getD i 0 ≠ 0))
    else
      ((argsort array).reverse).take k
  (List.range array.length).map (fun i =>
    if i ∈ selected_indices then
      (if cfg.retain_mmr_values then array.getD i 0 else 1)
    else 0)

/-- numpy slice assignment `l[start : start + len(seg)] = seg`
(in-bounds case, the only one the code exercises). -/
def setSegment (l : List ℚ) (start : ℕ) (seg : List ℚ) : List ℚ :=
  l.take start ++ seg ++ l.drop (start + seg.length)

/-- The `for sent_idx in range(len(enc_tokens))` loop of
`convert_to_word_level`: writes `np.full(len, scores[sent_idx])` at the
running `word_idx` for each sentence. -/
def writeSents (scores : List ℚ) : List ℚ → ℕ → ℕ → List ℕ → List ℚ
  | base, _, _, [] => base
  | base, word_idx, sent_idx, len :: rest =>
      writeSents scores
        (setSegment base word_idx (List.replicate len (scores.getD sent_idx 0)))
        (word_idx + len) (sent_idx + 1) rest

/-- `convert_to_word_level` (lines 120-128): starts from the uniform vector
`np.ones(nw)/nw` (`nw = len(batch.enc_batch[0])`, the source token count) and
broadcasts `mmr_for_sentences[i]` over the token span of sentence `i`
(`sentLens = [len(enc_tokens[i]) for i]`). -/
def convert_to_word_level (mmr_for_sentences : List ℚ) (nw : ℕ)
    (sentLens : List ℕ) : List ℚ :=
  writeSents mmr_for_sentences (List.replicate nw ((1 : ℚ) / (nw : ℚ))) 0 0 sentLens

/-- Per-parent output of `model.decode_onestep` (line 325): the top
`2*beam_size` candidate `(token id, log-probability)` pairs together with the
updated decoder state, attention distribution, generation probability and
coverage vector for that parent hypothesis. -/
structure DecOut (σ α : Type) where
  topk : List (ℤ × ℚ)
  new_state : σ
  attn_dist : α
  p_gen : ℚ
  new_coverage : α

/-- The external collaborators `run_beam_search` consumes: the vocabulary
(special token ids and size) and the one-step decoder; `sim` packages
`get_summ_sents_and_tokens` + `util.get_similarity` (an external scorer) as a
function of the hypothesis's token list, returning the per-source-sentence
similarity vector. `decode` receives the per-hypothesis input lists and yields
the `i`-th parent's outputs. -/
structure Model (σ α : Type) where
  vocab_size : ℤ
  start_id : ℤ
  stop_id : ℤ
  unk_id : ℤ
  period_id : ℤ
  decode : List ℤ → List σ → List α → List (Option (List ℚ)) → ℕ → DecOut σ α
  sim : List ℤ → List ℚ

/-- `update_similarity_and_mmr` (lines 262-265): overwrites `hyp.similarity`
with the freshly computed per-sentence similarity vector and `hyp.mmr` with
`calc_mmr_from_sim_and_imp(hyp.similarity, importances)`. -/
def update_similarity_and_mmr {σ α : Type} (mdl : Model σ α) (cfg : Config)
    (importances : Option (List ℚ)) (hyp : Hypothesis σ α) : Hypothesis σ α :=
  let similarity := mdl.sim hyp.tokens
  { hyp with
      similarity := Sum.inr similarity,
      mmr := some (calc_mmr_from_sim_and_imp cfg.lambda_val similarity
        (importances.getD [])) }

/-- Mutable state of the `while` loop of `run_beam_search`: the step counter,
the live beam `hyps` and the finished-results list `results`. -/
structure BState (σ α : Type) where
  steps : ℕ
  hyps : List (Hypothesis σ α)
  results : List (Hypothesis σ α)

/-- The ranked walk of lines 352-363: scan the sorted children in order; a
child whose latest token is the stop token is appended to `results` when
`steps >= min_dec_steps` (discarded otherwise); any other child is appended to
the live list; `break` as soon as either list reaches `beam_size`. -/
def beamWalk {σ α : Type} (cfg : Config) (stop_id : ℤ) (steps : ℕ) :
    List (Hypothesis σ α) → List (Hypothesis σ α) → List (Hypothesis σ α) →
    List (Hypothesis σ α) × List (Hypothesis σ α)
  | [], hyps, results => (hyps, results)
  | h :: rest, hyps, results =>
      let hyps' := if h.latest_token = stop_id then hyps else hyps ++ [h]
      let results' :=
        if h.latest_token = stop_id ∧ cfg.min_dec_steps ≤ steps then results ++ [h]
        else results
      if hyps'.length = cfg.beam_size ∨ results'.length = cfg.beam_size then
        (hyps', results')
      else beamWalk cfg stop_id steps rest hyps' results'

/-- Lines 307-309: the latest tokens of the live beam, with any id outside
`range(vocab.size())` replaced by the unknown-token id. -/
def stepTokens {σ α : Type} (mdl : Model σ α) (st : BState σ α) : List ℤ :=
  (st.hyps.map (fun h => h.latest_token)).map
    (fun t => if 0 ≤ t ∧ t < mdl.vocab_size then t else mdl.unk_id)

/-- Lines 314-321: the per-hypothesis word-level gating vectors handed to the
decoder: when `pg_mmr`, each hypothesis's `mmr` is muted to the top
`mute_k` sentences (unless `mute_k == -1`) and expanded to word level;
otherwise a `None` per hypothesis. -/
def stepMmrWords {σ α : Type} (cfg : Config) (nw : ℕ) (sentLens : List ℕ)
    (st : BState σ α) : List (Option (List ℚ)) :=
  let prev_mmr := st.hyps.map (fun h => h.mmr)
  let prev_mmr := if cfg.pg_mmr ∧ cfg.mute_k ≠ -1 then
      prev_mmr.map (fun m =>
        m.map (fun v => mute_all_except_top_k cfg v cfg.mute_k.toNat))
    else prev_mmr
  if cfg.pg_mmr then
    prev_mmr.map (fun m => m.map (fun v => convert_to_word_level v nw sentLens))
  else prev_mmr.map (fun _ => none)

/-- Line 325: the decoder call, with all per-hypothesis inputs; yields the
`i`-th parent's outputs. -/
def stepOut {σ α : Type} (cfg : Config) (mdl : Model σ α) (nw : ℕ)
    (sentLens : List ℕ) (st : BState σ α) (i : ℕ) : DecOut σ α :=
  mdl.decode (stepTokens mdl st) (st.hyps.map (fun h => h.state))
    (st.hyps.map (fun h => h.coverage)) (stepMmrWords cfg nw sentLens st) i

/-- Line 335: `1` on the first step, `len(hyps)` afterwards. -/
def num_orig_hyps {σ α : Type} (st : BState σ α) : ℕ :=
  if st.steps = 0 then 1 else st.hyps.length

/-- Lines 333-350: fan each of the `num_orig_hyps` parents into
`2*beam_size` children, one per candidate token, each child created by
`extend` with `mmr = h.mmr` (the parent's). -/
def fanOut {σ α : Type} [Inhabited σ] [Inhabited α] (cfg : Config)
    (mdl : Model σ α) (nw : ℕ) (sentLens : List ℕ) (st : BState σ α) :
    List (Hypothesis σ α) :=
  (List.range (num_orig_hyps st)).flatMap (fun i =>
    let h := st.hyps.getD i default
    let o := stepOut cfg mdl nw sentLens st i
    (List.range (cfg.beam_size * 2)).map (fun j =>
      let c := o.topk.getD j (0, 0)
      h.extend c.1 c.2 o.new_state o.attn_dist o.p_gen o.new_coverage h.mmr))

/-- One iteration of the `while` loop body (lines 305-370): fan out, rank
(`sort_hyps`) and walk the children (lines 352-363), then recompute
similarity and MMR for every live hypothesis that just completed a sentence
(lines 365-369), and increment `steps`. -/
def bsStep {σ α : Type} [Inhabited σ] [Inhabited α] (cfg : Config)
    (mdl : Model σ α) (importances : Option (List ℚ)) (nw : ℕ)
    (sentLens : List ℕ) (st : BState σ α) : BState σ α :=
  let wr := beamWalk cfg mdl.stop_id st.steps
    (sort_hyps (fanOut cfg mdl nw sentLens st)) [] st.results
  let hyps2 := if cfg.pg_mmr then
      wr.1.map (fun hyp =>
        if hyp.latest_token = mdl.period_id then
          update_similarity_and_mmr mdl cfg importances hyp
        else hyp)
    else wr.1
  ⟨st.steps + 1, hyps2, wr.2⟩

theorem bsStep_steps {σ α : Type} [Inhabited σ] [Inhabited α] (cfg : Config)
    (mdl : Model σ α) (importances : Option (List ℚ)) (nw : ℕ)
    (sentLens : List ℕ) (st : BState σ α) :
    (bsStep cfg mdl importances nw sentLens st).steps = st.steps + 1 := rfl

/-- The `while steps < max_dec_steps and len(results) < beam_size` loop
(lines 304-370). -/
def bsLoop {σ α : Type} [Inhabited σ] [Inhabited α] (cfg : Config)
    (mdl : Model σ α) (importances : Option (List ℚ)) (nw : ℕ)
    (sentLens : List ℕ) (st : BState σ α) : BState σ α :=
  if h : st.steps < cfg.max_dec_steps ∧ st.results.length < cfg.beam_size then
    bsLoop cfg mdl importances nw sentLens (bsStep cfg mdl importances nw sentLens st)
  else st
termination_by cfg.max_dec_steps - st.steps
decreasing_by
  rw [bsStep_steps]
  omega

/-- The initial beam (lines 293-300): `beam_size` copies of the start
hypothesis, with `mmr = mmr_init = importances`. -/
def init_hyps {σ α : Type} (cfg : Config) (mdl : Model σ α) (dec_in_state : σ)
    (init_coverage : α) (importances : Option (List ℚ)) :
    List (Hypothesis σ α) :=
  (List.range cfg.beam_size).map (fun _ =>
    Hypothesis.make [mdl.start_id] [0] dec_in_state [] [] init_coverage importances)

/-- The loop's final state, starting from `steps = 0`, the initial beam and
`results = []`. -/
def bs_final {σ α : Type} [Inhabited σ] [Inhabited α] (cfg : Config)
    (mdl : Model σ α) (dec_in_state : σ) (init_coverage : α)
    (importances : Option (List ℚ)) (nw : ℕ) (sentLens : List ℕ) :
    BState σ α :=
  bsLoop cfg mdl importances nw sentLens
    ⟨0, init_hyps cfg mdl dec_in_state init_coverage importances, []⟩

/-- `run_beam_search` (lines 267-387) after the external encoder/importance
calls: run the loop, fall back to the live beam when no hypothesis finished
(lines 374-375), sort by average log probability and return the first element
(lines 378-387). `results[0]` on an empty list raises `IndexError`; the total
model returns `Option` with `none` for that error. -/
def run_beam_search {σ α : Type} [Inhabited σ] [Inhabited α] (cfg : Config)
    (mdl : Model σ α) (dec_in_state : σ) (init_coverage : α)
    (importances : Option (List ℚ)) (nw : ℕ) (sentLens : List ℕ) :
    Option (Hypothesis σ α) :=
  let fin := bs_final cfg mdl dec_in_state init_coverage importances nw sentLens
  let results := if fin.results.isEmpty then fin.hyps else fin.results
  (sort_hyps results).head?

/-! ### Claim C4: the MMR scorer -/

/-- Claim C4: for every importance vector, similarity vector (of matching
length) and lambda in [0,1], `calc_mmr_from_sim_and_imp` returns the vector
with `mmr[i] = max(0, lambda*importance[i] - (1-lambda)*similarity[i])`, and
every entry of the result is nonnegative (negative results are clamped to
zero). The computation is a pure function of its arguments. -/
theorem calc_mmr_spec (lambda_val : ℚ) (hlam : 0 ≤ lambda_val ∧ lambda_val ≤ 1)
    (similarity importances : List ℚ)
    (hlen : similarity.length = importances.length) :
    (calc_mmr_from_sim_and_imp lambda_val similarity importances).length
        = importances.length ∧
    (∀ i, i < importances.length →
      (calc_mmr_from_sim_and_imp lambda_val similarity importances).getD i 0 =
        max 0 (lambda_val * importances.getD i 0
          - (1 - lambda_val) * similarity.getD i 0)) ∧
    (∀ x ∈ calc_mmr_from_sim_and_imp lambda_val similarity importances, 0 ≤ x) := by
  refine ⟨?_, ?_, ?_⟩
  · simp [calc_mmr_from_sim_and_imp, hlen]
  · intro i hi
    have hi2 : i < similarity.length := by omega
    have hires : i < (calc_mmr_from_sim_and_imp lambda_val similarity
        importances).length := by
      simp [calc_mmr_from_sim_and_imp, hlen]
      omega
    rw [List.getD_eq_getElem _ _ hires, List.getD_eq_getElem _ _ hi,
      List.getD_eq_getElem _ _ hi2]
    simp [calc_mmr_from_sim_and_imp, max_comm]
  · intro x hx
    simp only [calc_mmr_from_sim_and_imp, List.mem_map] at hx
    obtain ⟨y, _, rfl⟩ := hx
    exact le_max_right y 0

/-- Witness for `calc_mmr_spec` at lambda = 1/2, similarity `[2, 0]`,
importances `[1, 3]`. -/
theorem calc_mmr_spec_witness :
    (calc_mmr_from_sim_and_imp (1/2) [2, 0] [1, 3]).length = 2 ∧
    (∀ i, i < ([1, 3] : List ℚ).length →
      (calc_mmr_from_sim_and_imp (1/2) [2, 0] [1, 3]).getD i 0 =
        max 0 ((1/2) * ([1, 3] : List ℚ).getD i 0
          - (1 - 1/2) * ([2, 0] : List ℚ).getD i 0)) ∧
    (∀ x ∈ calc_mmr_from_sim_and_imp (1/2) [2, 0] [1, 3], 0 ≤ x) :=
  calc_mmr_spec (1/2) (by norm_num) [2, 0] [1, 3] rfl

/-! ### Claim C10: children reset similarity, inherit the passed mmr -/

/-- Claim C10: for every hypothesis `h` and any extension arguments, the child
returned by `h.extend(...)` has `similarity` equal to the scalar `0.` even
when `h.similarity` is non-zero (the constructor always resets it), while the
child's `mmr` is exactly the `mmr` argument passed at fan-out (the loop passes
the parent's `h.mmr` there, line 349). -/
theorem extend_resets_similarity {σ α : Type} (h : Hypothesis σ α)
    (hsim : h.similarity ≠ Sum.inl 0) (token : ℤ) (log_prob : ℚ) (state : σ)
    (attn_dist : α) (p_gen : ℚ) (coverage : α) (mmr : Option (List ℚ)) :
    (h.extend token log_prob state attn_dist p_gen coverage mmr).similarity
        = Sum.inl 0 ∧
    (h.extend token log_prob state attn_dist p_gen coverage mmr).mmr = mmr :=
  ⟨rfl, rfl⟩

/-- Witness for `extend_resets_similarity`: a parent whose similarity is the
(non-zero) vector `[1]` and whose own mmr is `[5]`. -/
theorem extend_resets_similarity_witness :
    ((⟨[0], [0], (), [], [], (), Sum.inr [1], some [5]⟩ : Hypothesis Unit Unit).extend
        7 (-1) () () 0 () (some [5])).similarity = Sum.inl 0 ∧
    ((⟨[0], [0], (), [], [], (), Sum.inr [1], some [5]⟩ : Hypothesis Unit Unit).extend
        7 (-1) () () 0 () (some [5])).mmr = some [5] :=
  extend_resets_similarity _ (by simp) 7 (-1) () () 0 () (some [5])

/-! ### Claim C8: (im)mutability of Hypothesis -/

/-- A concrete model used to exhibit the in-place update of a hypothesis:
its external similarity scorer returns `[3]`. -/
def mutModel : Model Unit Unit :=
  ⟨10, 0, 2, 3, 4, fun _ _ _ _ _ => ⟨[(1, 0), (1, 0)], (), (), 0, ()⟩, fun _ => [3]⟩

/-- A concrete configuration with `pg_mmr` on, lambda = 1/2, retain mode. -/
def mutConfig : Config := ⟨1, 1, 0, true, -1, 1/2, true⟩

/-- Claim C8 counterexample: `update_similarity_and_mmr` — executed by the
decoding loop (line 369) on a live, already-constructed hypothesis that just
completed a sentence — assigns that hypothesis's `similarity` and `mmr`
fields in place (lines 264-265): for this concrete hypothesis the operation
yields different `similarity` and `mmr` values on the very same hypothesis
object (its `tokens` are unchanged), so the loop does change fields of an
already-constructed Hypothesis. -/
theorem update_changes_fields_counterexample :
    (update_similarity_and_mmr mutModel mutConfig (some [5])
        (⟨[0, 4], [0, -1], (), [], [], (), Sum.inl 0, some [5]⟩ :
          Hypothesis Unit Unit)).similarity
      ≠ (⟨[0, 4], [0, -1], (), [], [], (), Sum.inl 0, some [5]⟩ :
          Hypothesis Unit Unit).similarity ∧
    (update_similarity_and_mmr mutModel mutConfig (some [5])
        (⟨[0, 4], [0, -1], (), [], [], (), Sum.inl 0, some [5]⟩ :
          Hypothesis Unit Unit)).mmr
      ≠ (⟨[0, 4], [0, -1], (), [], [], (), Sum.inl 0, some [5]⟩ :
          Hypothesis Unit Unit).mmr ∧
    (update_similarity_and_mmr mutModel mutConfig (some [5])
        (⟨[0, 4], [0, -1], (), [], [], (), Sum.inl 0, some [5]⟩ :
          Hypothesis Unit Unit)).tokens
      = (⟨[0, 4], [0, -1], (), [], [], (), Sum.inl 0, some [5]⟩ :
          Hypothesis Unit Unit).tokens := by
  refine ⟨?_, ?_, rfl⟩ <;>
    simp [update_similarity_and_mmr, mutModel, mutConfig,
      calc_mmr_from_sim_and_imp] <;> norm_num

/-- Claim C8 (amended): every extension produces a new `Hypothesis` built
from the parent by appending one element to `tokens`, `log_probs`,
`attn_dists` and `p_gens` and installing the passed `state`, `coverage` and
`mmr` (the parent value is not consumed or altered); and the only in-place
field updates the decoding loop performs on an already-constructed hypothesis
are by `update_similarity_and_mmr`, which overwrites exactly the `similarity`
and `mmr` fields, leaving `tokens`, `log_probs`, `state`, `attn_dists`,
`p_gens` and `coverage` unchanged. -/
theorem extend_and_update_frame {σ α : Type} (mdl : Model σ α) (cfg : Config)
    (importances : Option (List ℚ)) (h : Hypothesis σ α) (token : ℤ)
    (log_prob : ℚ) (state : σ) (attn_dist : α) (p_gen : ℚ) (coverage : α)
    (mmr : Option (List ℚ)) :
    ((h.extend token log_prob state attn_dist p_gen coverage mmr).tokens
        = h.tokens ++ [token] ∧
      (h.extend token log_prob state attn_dist p_gen coverage mmr).log_probs
        = h.log_probs ++ [log_prob] ∧
      (h.extend token log_prob state attn_dist p_gen coverage mmr).attn_dists
        = h.attn_dists ++ [attn_dist] ∧
      (h.extend token log_prob state attn_dist p_gen coverage mmr).p_gens
        = h.p_gens ++ [p_gen] ∧
      (h.extend token log_prob state attn_dist p_gen coverage mmr).state = state ∧
      (h.extend token log_prob state attn_dist p_gen coverage mmr).coverage
        = coverage ∧
      (h.extend token log_prob state attn_dist p_gen coverage mmr).mmr = mmr) ∧
    ((update_similarity_and_mmr mdl cfg importances h).tokens = h.tokens ∧
      (update_similarity_and_mmr mdl cfg importances h).log_probs = h.log_probs ∧
      (update_similarity_and_mmr mdl cfg importances h).state = h.state ∧
      (update_similarity_and_mmr mdl cfg importances h).attn_dists = h.attn_dists ∧
      (update_similarity_and_mmr mdl cfg importances h).p_gens = h.p_gens ∧
      (update_similarity_and_mmr mdl cfg importances h).coverage = h.coverage) :=
  ⟨⟨rfl, rfl, rfl, rfl, rfl, rfl, rfl⟩, ⟨rfl, rfl, rfl, rfl, rfl, rfl⟩⟩

/-! ### Claim C1: the result selector -/

theorem head?_orderedInsert {σ α : Type} (a c : Hypothesis σ α)
    (cs : List (Hypothesis σ α)) :
    (List.orderedInsert hyp_ge a (c :: cs)).head? =
      some (if hyp_ge a c then a else c) := by
  by_cases hac : hyp_ge a c
  · simp [List.orderedInsert, hac]
  · simp [List.orderedInsert, hac]

/-- Claim C1: for every non-empty hypothesis collection, `sort_hyps` followed
by taking the first element returns a hypothesis of maximum
`avg_log_prob = sum(log_probs)/len(tokens)`, and when several hypotheses
attain the maximum the earliest-inserted one is returned (stable descending
sort): the head is `l[i]` for an index `i` whose key is maximal and such that
every earlier index has a strictly smaller key. -/
theorem sort_hyps_head_spec {σ α : Type} (l : List (Hypothesis σ α))
    (hne : l ≠ []) :
    ∃ (i : ℕ) (hi : i < l.length),
      (sort_hyps l).head? = some l[i] ∧
      (∀ (j : ℕ) (hj : j < l.length),
        l[j].avg_log_prob ≤ l[i].avg_log_prob) ∧
      (∀ (j : ℕ) (hj : j < l.length), j < i →
        l[j].avg_log_prob < l[i].avg_log_prob) := by
  induction l with
  | nil => exact absurd rfl hne
  | cons a t ih =>
    cases t with
    | nil =>
      refine ⟨0, by simp, by simp [sort_hyps], ?_, ?_⟩
      · intro j hj
        simp only [List.length_cons, List.length_nil] at hj
        have hj0 : j = 0 := by omega
        subst hj0
        simp
      · intro j hj hj0
        omega
    | cons b t' =>
      obtain ⟨i', hi', hhead, hmax, hstrict⟩ := ih (by simp)
      have hsortlen : (sort_hyps (b :: t')).length = (b :: t').length :=
        List.length_insertionSort _ _
      obtain ⟨c, cs, hsort⟩ : ∃ c cs, sort_hyps (b :: t') = c :: cs := by
        cases hcs : sort_hyps (b :: t') with
        | nil => rw [hcs] at hsortlen; simp at hsortlen
        | cons c cs => exact ⟨c, cs, rfl⟩
      have hc : (b :: t')[i'] = c := by
        rw [hsort] at hhead
        simpa using hhead.symm
      have hstep : sort_hyps (a :: b :: t') =
          List.orderedInsert hyp_ge a (sort_hyps (b :: t')) := rfl
      by_cases hac : hyp_ge a c
      · refine ⟨0, by simp, ?_, ?_, ?_⟩
        · rw [hstep, hsort, head?_orderedInsert, if_pos hac]
          simp
        · intro j hj
          cases j with
          | zero => simp
          | succ j' =>
            have hj' : j' < (b :: t').length := by simpa using hj
            have h1 : (b :: t')[j'].avg_log_prob ≤ (b :: t')[i'].avg_log_prob :=
              hmax j' hj'
            have h2 : (b :: t')[i'].avg_log_prob ≤ a.avg_log_prob := by
              rw [hc]; exact hac
            simpa using le_trans h1 h2
        · intro j hj hj0
          omega
      · have haclt : a.avg_log_prob < c.avg_log_prob := lt_of_not_le hac
        refine ⟨i' + 1, by simpa using hi', ?_, ?_, ?_⟩
        · rw [hstep, hsort, head?_orderedInsert, if_neg hac]
          simp [← hc]
        · intro j hj
          cases j with
          | zero =>
            simpa [hc] using le_of_lt haclt
          | succ j' =>
            have hj' : j' < (b :: t').length := by simpa using hj
            simpa using hmax j' hj'
        · intro j hj hji
          cases j with
          | zero =>
            simpa [hc] using haclt
          | succ j' =>
            have hj' : j' < (b :: t').length := by simpa using hj
            simpa using hstrict j' hj' (by omega)

/-- Witness for `sort_hyps_head_spec`: two hypotheses with equal keys. -/
theorem sort_hyps_head_spec_witness :
    ∃ (i : ℕ) (hi : i <
        ([⟨[0], [-1], (), [], [], (), Sum.inl 0, none⟩,
          ⟨[5], [-1], (), [], [], (), Sum.inl 0, none⟩] :
          List (Hypothesis Unit Unit)).length),
      (sort_hyps [⟨[0], [-1], (), [], [], (), Sum.inl 0, none⟩,
          ⟨[5], [-1], (), [], [], (), Sum.inl 0, none⟩]).head? =
        some ([⟨[0], [-1], (), [], [], (), Sum.inl 0, none⟩,
          ⟨[5], [-1], (), [], [], (), Sum.inl 0, none⟩] :
          List (Hypothesis Unit Unit))[i] ∧
      (∀ (j : ℕ) (hj : j <
          ([⟨[0], [-1], (), [], [], (), Sum.inl 0, none⟩,
            ⟨[5], [-1], (), [], [], (), Sum.inl 0, none⟩] :
            List (Hypothesis Unit Unit)).length),
        ([⟨[0], [-1], (), [], [], (), Sum.inl 0, none⟩,
          ⟨[5], [-1], (), [], [], (), Sum.inl 0, none⟩] :
          List (Hypothesis Unit Unit))[j].avg_log_prob ≤
        ([⟨[0], [-1], (), [], [], (), Sum.inl 0, none⟩,
          ⟨[5], [-1], (), [], [], (), Sum.inl 0, none⟩] :
          List (Hypothesis Unit Unit))[i].avg_log_prob) ∧
      (∀ (j : ℕ) (hj : j <
          ([⟨[0], [-1], (), [], [], (), Sum.inl 0, none⟩,
            ⟨[5], [-1], (), [], [], (), Sum.inl 0, none⟩] :
            List (Hypothesis Unit Unit)).length), j < i →
        ([⟨[0], [-1], (), [], [], (), Sum.inl 0, none⟩,
          ⟨[5], [-1], (), [], [], (), Sum.inl 0, none⟩] :
          List (Hypothesis Unit Unit))[j].avg_log_prob <
        ([⟨[0], [-1], (), [], [], (), Sum.inl 0, none⟩,
          ⟨[5], [-1], (), [], [], (), Sum.inl 0, none⟩] :
          List (Hypothesis Unit Unit))[i].avg_log_prob) :=
  sort_hyps_head_spec _ (by simp)

/-! ### Claim C7: word-level score expansion -/

theorem setSegment_length (l seg : List ℚ) (start : ℕ)
    (h : start + seg.length ≤ l.length) :
    (setSegment l start seg).length = l.length := by
  simp only [setSegment, List.length_append, List.length_take, List.length_drop]
  omega

theorem getD_drop_q (l : List ℚ) (n m : ℕ) :
    (l.drop n).getD m 0 = l.getD (n + m) 0 := by
  by_cases hm : n + m < l.length
  · rw [List.getD_eq_getElem _ _ (by simp only [List.length_drop]; omega),
      List.getD_eq_getElem _ _ hm]
    exact List.getElem_drop _
  · rw [List.getD_eq_default _ _ (by simp only [List.length_drop]; omega),
      List.getD_eq_default _ _ (by omega)]

theorem setSegment_getD_lt (l seg : List ℚ) (start p : ℕ) (hp : p < start)
    (h : start + seg.length ≤ l.length) :
    (setSegment l start seg).getD p 0 = l.getD p 0 := by
  have htake : (l.take start).length = start := by
    simp only [List.length_take]
    omega
  simp only [setSegment]
  rw [List.getD_append _ _ _ _ (by simp only [List.length_append, htake]; omega)]
  rw [List.getD_append _ _ _ _ (by rw [htake]; exact hp)]
  rw [List.getD_eq_getElem _ _ (by rw [htake]; exact hp),
    List.getD_eq_getElem _ _ (by omega)]
  exact List.getElem_take _

theorem setSegment_getD_mid (l seg : List ℚ) (start j : ℕ) (hj : j < seg.length)
    (h : start + seg.length ≤ l.length) :
    (setSegment l start seg).getD (start + j) 0 = seg.getD j 0 := by
  have htake : (l.take start).length = start := by
    simp only [List.length_take]
    omega
  simp only [setSegment]
  rw [List.getD_append _ _ _ _ (by simp only [List.length_append, htake]; omega)]
  rw [List.getD_append_right _ _ _ _ (by rw [htake]; omega)]
  rw [htake]
  have hidx : start + j - start = j := by omega
  rw [hidx]

theorem setSegment_getD_ge (l seg : List ℚ) (start p : ℕ)
    (hge : start + seg.length ≤ p) (h : start + seg.length ≤ l.length) :
    (setSegment l start seg).getD p 0 = l.getD p 0 := by
  have htakeseg : (l.take start ++ seg).length = start + seg.length := by
    simp only [List.length_append, List.length_take]
    omega
  simp only [setSegment]
  rw [List.getD_append_right _ _ _ _ (by rw [htakeseg]; omega)]
  rw [htakeseg, getD_drop_q]
  congr 1
  omega

theorem writeSents_spec (scores : List ℚ) (sentLens : List ℕ) :
    ∀ (base : List ℚ) (word_idx sent_idx : ℕ),
    word_idx + sentLens.sum ≤ base.length →
    (writeSents scores base word_idx sent_idx sentLens).length = base.length ∧
    (∀ p, p < word_idx →
      (writeSents scores base word_idx sent_idx sentLens).getD p 0
        = base.getD p 0) ∧
    (∀ p, word_idx + sentLens.sum ≤ p →
      (writeSents scores base word_idx sent_idx sentLens).getD p 0
        = base.getD p 0) ∧
    (∀ i, i < sentLens.length → ∀ j, j < sentLens.getD i 0 →
      (writeSents scores base word_idx sent_idx sentLens).getD
          (word_idx + (sentLens.take i).sum + j) 0
        = scores.getD (sent_idx + i) 0) := by
  induction sentLens with
  | nil =>
    intro base word_idx sent_idx _
    refine ⟨rfl, fun p _ => rfl, fun p _ => rfl, ?_⟩
    intro i hi
    simp at hi
  | cons len rest ih =>
    intro base word_idx sent_idx hb
    simp only [List.sum_cons] at hb
    have hseg : word_idx
        + (List.replicate len (scores.getD sent_idx 0)).length ≤ base.length := by
      simp only [List.length_replicate]
      omega
    have hlen' : (setSegment base word_idx
        (List.replicate len (scores.getD sent_idx 0))).length = base.length :=
      setSegment_length _ _ _ hseg
    obtain ⟨ihlen, ihlt, ihge, ihseg⟩ := ih
      (setSegment base word_idx (List.replicate len (scores.getD sent_idx 0)))
      (word_idx + len) (sent_idx + 1) (by rw [hlen']; omega)
    have hunfold : writeSents scores base word_idx sent_idx (len :: rest)
        = writeSents scores
            (setSegment base word_idx (List.replicate len (scores.getD sent_idx 0)))
            (word_idx + len) (sent_idx + 1) rest := rfl
    rw [hunfold]
    refine ⟨by rw [ihlen, hlen'], ?_, ?_, ?_⟩
    · intro p hp
      rw [ihlt p (by omega)]
      exact setSegment_getD_lt _ _ _ _ hp hseg
    · intro p hp
      simp only [List.sum_cons] at hp
      rw [ihge p (by omega)]
      exact setSegment_getD_ge _ _ _ _ (by simp only [List.length_replicate]; omega)
        hseg
    · intro i hi j hj
      cases i with
      | zero =>
        simp only [List.take_zero, List.sum_nil, Nat.add_zero]
        simp only [List.getD_cons_zero] at hj
        rw [show word_idx + j = word_idx + j from rfl]
        rw [ihlt (word_idx + j) (by omega)]
        have := setSegment_getD_mid base
          (List.replicate len (scores.getD sent_idx 0)) word_idx j
          (by simp only [List.length_replicate]; omega) hseg
        rw [this]
        rw [List.getD_eq_getElem _ _ (by simp only [List.length_replicate]; omega)]
        simp [List.getElem_replicate]
      | succ i' =>
        have hi' : i' < rest.length := by simpa using hi
        have hj' : j < rest.getD i' 0 := by simpa using hj
        have harith : word_idx + ((len :: rest).take (i' + 1)).sum + j
            = (word_idx + len) + (rest.take i').sum + j := by
          simp only [List.take_succ_cons, List.sum_cons]
          omega
        have hsent : sent_idx + (i' + 1) = (sent_idx + 1) + i' := by omega
        rw [harith, hsent]
        exact ihseg i' hi' j hj'

/-- Claim C7: for every per-sentence score vector and sentence-to-token-count
segmentation fitting inside the `nw`-token source, `convert_to_word_level`
produces a vector of length `nw` in which every token position of sentence
`i` holds `score[i]` (the extracted span equals `replicate count score[i]`),
so the sum of per-token weights within sentence `i` is
`count(tokens of sentence i) * score[i]`; positions not covered by any
sentence keep the uniform decode-start default `1/nw`. -/
theorem convert_to_word_level_spec (scores : List ℚ) (sentLens : List ℕ)
    (nw : ℕ) (hsum : sentLens.sum ≤ nw)
    (hlen : sentLens.length ≤ scores.length) :
    (convert_to_word_level scores nw sentLens).length = nw ∧
    (∀ i, i < sentLens.length →
      (((convert_to_word_level scores nw sentLens).drop
            ((sentLens.take i).sum)).take (sentLens.getD i 0)
          = List.replicate (sentLens.getD i 0) (scores.getD i 0)) ∧
      ((((convert_to_word_level scores nw sentLens).drop
            ((sentLens.take i).sum)).take (sentLens.getD i 0)).sum
          = (sentLens.getD i 0 : ℚ) * scores.getD i 0)) ∧
    (∀ p, sentLens.sum ≤ p → p < nw →
      (convert_to_word_level scores nw sentLens).getD p 0 = 1 / (nw : ℚ)) := by
  have hbase : (0 : ℕ) + sentLens.sum ≤ (List.replicate nw ((1 : ℚ) / nw)).length := by
    simp only [List.length_replicate]
    omega
  obtain ⟨hlen0, _, hge, hseg⟩ := writeSents_spec scores sentLens
    (List.replicate nw ((1 : ℚ) / nw)) 0 0 hbase
  have hclen : (convert_to_word_level scores nw sentLens).length = nw := by
    rw [convert_to_word_level, hlen0, List.length_replicate]
  refine ⟨hclen, ?_, ?_⟩
  · intro i hi
    have htake1 : ((sentLens.take (i + 1)).sum)
        = (sentLens.take i).sum + sentLens.getD i 0 := by
      rw [List.take_succ, List.getElem?_eq_getElem hi, List.sum_append]
      simp [List.getElem?_eq_getElem hi, List.getD_eq_getElem _ _ hi]
    have htot : (sentLens.take i).sum + sentLens.getD i 0 ≤ sentLens.sum := by
      rw [← htake1]
      conv_rhs => rw [← List.take_append_drop (i + 1) sentLens]
      rw [List.sum_append]
      omega
    have hext : ((convert_to_word_level scores nw sentLens).drop
        ((sentLens.take i).sum)).take (sentLens.getD i 0)
        = List.replicate (sentLens.getD i 0) (scores.getD i 0) := by
      apply List.ext_getElem
      · simp only [List.length_take, List.length_drop, List.length_replicate, hclen]
        omega
      · intro j hj1 hj2
        simp only [List.length_replicate] at hj2
        rw [List.getElem_replicate]
        rw [List.getElem_take, List.getElem_drop]
        have hpos : (sentLens.take i).sum + j < nw := by omega
        rw [← List.getD_eq_getElem _ 0 (by rw [hclen]; exact hpos)]
        have := hseg i hi j hj2
        simpa [convert_to_word_level] using this
    refine ⟨hext, ?_⟩
    rw [hext, List.sum_replicate, nsmul_eq_mul]
  · intro p hp hpn
    have := hge p (by omega)
    rw [convert_to_word_level] at *
    rw [this]
    rw [List.getD_eq_getElem _ _ (by simp only [List.length_replicate]; omega)]
    rw [List.getElem_replicate]

/-- Witness for `convert_to_word_level_spec`: scores `[3, 7]`, sentence
lengths `[2, 1]`, source length `4`. -/
theorem convert_to_word_level_spec_witness :
    (convert_to_word_level [3, 7] 4 [2, 1]).length = 4 ∧
    (∀ i, i < ([2, 1] : List ℕ).length →
      (((convert_to_word_level [3, 7] 4 [2, 1]).drop
            ((([2, 1] : List ℕ).take i).sum)).take (([2, 1] : List ℕ).getD i 0)
          = List.replicate (([2, 1] : List ℕ).getD i 0)
              (([3, 7] : List ℚ).getD i 0)) ∧
      ((((convert_to_word_level [3, 7] 4 [2, 1]).drop
            ((([2, 1] : List ℕ).take i).sum)).take
              (([2, 1] : List ℕ).getD i 0)).sum
          = ((([2, 1] : List ℕ).getD i 0 : ℕ) : ℚ)
              * ([3, 7] : List ℚ).getD i 0)) ∧
    (∀ p, ([2, 1] : List ℕ).sum ≤ p → p < 4 →
      (convert_to_word_level [3, 7] 4 [2, 1]).getD p 0 = 1 / (4 : ℚ)) :=
  convert_to_word_level_spec [3, 7] [2, 1] 4 (by norm_num) (by norm_num)

/-! ### Claim C6: the ranked walk over fanned-out children -/

/-- The children a completed walk keeps live: those whose latest token is not
the stop token. -/
def liveFilter {σ α : Type} (stop_id : ℤ) (l : List (Hypothesis σ α)) :
    List (Hypothesis σ α) :=
  l.filter (fun h => decide (h.latest_token ≠ stop_id))

/-- The children a completed walk moves to the finished results: those whose
latest token is the stop token, kept only when `steps >= min_dec_steps`. -/
def finFilter {σ α : Type} (cfg : Config) (stop_id : ℤ) (steps : ℕ)
    (l : List (Hypothesis σ α)) : List (Hypothesis σ α) :=
  l.filter (fun h => decide (h.latest_token = stop_id ∧ cfg.min_dec_steps ≤ steps))

theorem liveFilter_append {σ α : Type} (stop_id : ℤ)
    (l₁ l₂ : List (Hypothesis σ α)) :
    liveFilter stop_id (l₁ ++ l₂)
      = liveFilter stop_id l₁ ++ liveFilter stop_id l₂ := by
  simp [liveFilter, List.filter_append]

theorem finFilter_append {σ α : Type} (cfg : Config) (stop_id : ℤ) (steps : ℕ)
    (l₁ l₂ : List (Hypothesis σ α)) :
    finFilter cfg stop_id steps (l₁ ++ l₂)
      = finFilter cfg stop_id steps l₁ ++ finFilter cfg stop_id steps l₂ := by
  simp [finFilter, List.filter_append]

theorem beamWalk_spec {σ α : Type} (cfg : Config) (stop_id : ℤ) (steps : ℕ) :
    ∀ (children hyps0 res0 : List (Hypothesis σ α)),
    hyps0.length < cfg.beam_size → res0.length < cfg.beam_size →
    ∃ n, n ≤ children.length ∧
      beamWalk cfg stop_id steps children hyps0 res0
        = (hyps0 ++ liveFilter stop_id (children.take n),
           res0 ++ finFilter cfg stop_id steps (children.take n)) ∧
      ((hyps0 ++ liveFilter stop_id (children.take n)).length = cfg.beam_size ∨
        (res0 ++ finFilter cfg stop_id steps (children.take n)).length
          = cfg.beam_size ∨
        n = children.length) ∧
      (∀ m, m < n →
        (hyps0 ++ liveFilter stop_id (children.take m)).length ≠ cfg.beam_size ∧
        (res0 ++ finFilter cfg stop_id steps (children.take m)).length
          ≠ cfg.beam_size) := by
  intro children
  induction children with
  | nil =>
    intro hyps0 res0 h1 h2
    refine ⟨0, le_refl 0, ?_, ?_, ?_⟩
    · simp [beamWalk, liveFilter, finFilter]
    · right; right; rfl
    · intro m hm; omega
  | cons c rest ih =>
    intro hyps0 res0 h1 h2
    have hh : (if c.latest_token = stop_id then hyps0 else hyps0 ++ [c])
        = hyps0 ++ liveFilter stop_id [c] := by
      by_cases hstop : c.latest_token = stop_id <;> simp [liveFilter, hstop]
    have hr : (if c.latest_token = stop_id ∧ cfg.min_dec_steps ≤ steps then
          res0 ++ [c] else res0)
        = res0 ++ finFilter cfg stop_id steps [c] := by
      by_cases hcnd : c.latest_token = stop_id ∧ cfg.min_dec_steps ≤ steps <;>
        simp [finFilter, hcnd]
    have hunfold : beamWalk cfg stop_id steps (c :: rest) hyps0 res0
        = (if (if c.latest_token = stop_id then hyps0 else hyps0 ++ [c]).length
              = cfg.beam_size ∨
            (if c.latest_token = stop_id ∧ cfg.min_dec_steps ≤ steps then
              res0 ++ [c] else res0).length = cfg.beam_size then
            ((if c.latest_token = stop_id then hyps0 else hyps0 ++ [c]),
             (if c.latest_token = stop_id ∧ cfg.min_dec_steps ≤ steps then
               res0 ++ [c] else res0))
          else beamWalk cfg stop_id steps rest
            (if c.latest_token = stop_id then hyps0 else hyps0 ++ [c])
            (if c.latest_token = stop_id ∧ cfg.min_dec_steps ≤ steps then
              res0 ++ [c] else res0)) := rfl
    rw [hunfold, hh, hr]
    by_cases hbreak : (hyps0 ++ liveFilter stop_id [c]).length = cfg.beam_size ∨
        (res0 ++ finFilter cfg stop_id steps [c]).length = cfg.beam_size
    · rw [if_pos hbreak]
      refine ⟨1, by simp, ?_, ?_, ?_⟩
      · simp
      · rcases hbreak with hb | hb
        · left; simpa using hb
        · right; left; simpa using hb
      · intro m hm
        have hm0 : m = 0 := by omega
        subst hm0
        simp [liveFilter, finFilter]
        omega
    · rw [if_neg hbreak]
      push_neg at hbreak
      obtain ⟨hb1, hb2⟩ := hbreak
      have hlive1 : (hyps0 ++ liveFilter stop_id [c]).length
          ≤ hyps0.length + 1 := by
        simp only [List.length_append]
        have := List.length_filter_le
          (fun h => decide (Hypothesis.latest_token h ≠ stop_id)) [c]
        simp only [List.length_cons, List.length_nil] at this
        simp only [liveFilter]
        omega
      have hfin1 : (res0 ++ finFilter cfg stop_id steps [c]).length
          ≤ res0.length + 1 := by
        simp only [List.length_append]
        have := List.length_filter_le
          (fun h => decide (Hypothesis.latest_token h = stop_id
            ∧ cfg.min_dec_steps ≤ steps)) [c]
        simp only [List.length_cons, List.length_nil] at this
        simp only [finFilter]
        omega
      obtain ⟨n', hn'le, heq, hdisj, hmin⟩ := ih
        (hyps0 ++ liveFilter stop_id [c])
        (res0 ++ finFilter cfg stop_id steps [c])
        (by omega) (by omega)
      have htake : ∀ m : ℕ, (c :: rest).take (m + 1) = [c] ++ rest.take m := by
        intro m
        simp [List.take_succ_cons]
      refine ⟨n' + 1, by simp; omega, ?_, ?_, ?_⟩
      · rw [heq, htake n', liveFilter_append, finFilter_append]
        simp only [List.append_assoc]
      · rcases hdisj with hd | hd | hd
        · left
          rw [htake n', liveFilter_append]
          simpa [List.append_assoc] using hd
        · right; left
          rw [htake n', finFilter_append]
          simpa [List.append_assoc] using hd
        · right; right
          simp only [List.length_cons]
          omega
      · intro m hm
        cases m with
        | zero =>
          simp only [List.take_zero, liveFilter, finFilter, List.filter_nil,
            List.append_nil]
          omega
        | succ m' =>
          have hm' : m' < n' := by omega
          obtain ⟨hg1, hg2⟩ := hmin m' hm'
          constructor
          · rw [htake m', liveFilter_append]
            simpa [List.append_assoc] using hg1
          · rw [htake m', finFilter_append]
            simpa [List.append_assoc] using hg2

/-- Claim C6: during each step's ranked walk over the fanned-out children
(`sort_hyps` output), there is a processed count `n` such that: every
processed child whose latest token is the stop token is appended to the
finished results exactly when `min_dec_steps <= steps` (and silently
discarded otherwise, never kept live); every processed child with any other
latest token becomes a live hypothesis; the walk consumed either the whole
list or stopped at the first point where the live set or the results
collection reached `beam_size` (all later-ranked children are discarded, and
no earlier point had reached `beam_size`). -/
theorem beamWalk_ranked_spec {σ α : Type} (cfg : Config) (stop_id : ℤ)
    (steps : ℕ) (all hyps0 res0 : List (Hypothesis σ α))
    (h1 : hyps0.length < cfg.beam_size) (h2 : res0.length < cfg.beam_size) :
    ∃ n, n ≤ (sort_hyps all).length ∧
      beamWalk cfg stop_id steps (sort_hyps all) hyps0 res0
        = (hyps0 ++ liveFilter stop_id ((sort_hyps all).take n),
           res0 ++ finFilter cfg stop_id steps ((sort_hyps all).take n)) ∧
      ((hyps0 ++ liveFilter stop_id ((sort_hyps all).take n)).length
          = cfg.beam_size ∨
        (res0 ++ finFilter cfg stop_id steps ((sort_hyps all).take n)).length
          = cfg.beam_size ∨
        n = (sort_hyps all).length) ∧
      (∀ m, m < n →
        (hyps0 ++ liveFilter stop_id ((sort_hyps all).take m)).length
          ≠ cfg.beam_size ∧
        (res0 ++ finFilter cfg stop_id steps ((sort_hyps all).take m)).length
          ≠ cfg.beam_size) :=
  beamWalk_spec cfg stop_id steps (sort_hyps all) hyps0 res0 h1 h2

/-- Witness for `beamWalk_ranked_spec`: one stop-token child and one ordinary
child under beam width 2. -/
theorem beamWalk_ranked_spec_witness :
    ∃ n, n ≤ (sort_hyps
        ([⟨[9], [-1], (), [], [], (), Sum.inl 0, none⟩,
          ⟨[3], [-2], (), [], [], (), Sum.inl 0, none⟩] :
          List (Hypothesis Unit Unit))).length ∧
      beamWalk ⟨2, 5, 0, false, -1, 1, true⟩ 9 1
          (sort_hyps [⟨[9], [-1], (), [], [], (), Sum.inl 0, none⟩,
            ⟨[3], [-2], (), [], [], (), Sum.inl 0, none⟩]) [] []
        = ([] ++ liveFilter 9 ((sort_hyps
              [⟨[9], [-1], (), [], [], (), Sum.inl 0, none⟩,
               ⟨[3], [-2], (), [], [], (), Sum.inl 0, none⟩]).take n),
           [] ++ finFilter ⟨2, 5, 0, false, -1, 1, true⟩ 9 1 ((sort_hyps
              [⟨[9], [-1], (), [], [], (), Sum.inl 0, none⟩,
               ⟨[3], [-2], (), [], [], (), Sum.inl 0, none⟩]).take n)) ∧
      (([] ++ liveFilter 9 ((sort_hyps
            [⟨[9], [-1], (), [], [], (), Sum.inl 0, none⟩,
             ⟨[3], [-2], (), [], [], (), Sum.inl 0, none⟩]).take n)).length = 2 ∨
        ([] ++ finFilter ⟨2, 5, 0, false, -1, 1, true⟩ 9 1 ((sort_hyps
            [⟨[9], [-1], (), [], [], (), Sum.inl 0, none⟩,
             ⟨[3], [-2], (), [], [], (), Sum.inl 0, none⟩]).take n)).length = 2 ∨
        n = (sort_hyps
            [⟨[9], [-1], (), [], [], (), Sum.inl 0, none⟩,
             ⟨[3], [-2], (), [], [], (), Sum.inl 0, none⟩]).length) ∧
      (∀ m, m < n →
        ([] ++ liveFilter 9 ((sort_hyps
            [⟨[9], [-1], (), [], [], (), Sum.inl 0, none⟩,
             ⟨[3], [-2], (), [], [], (), Sum.inl 0, none⟩]).take m)).length ≠ 2 ∧
        ([] ++ finFilter ⟨2, 5, 0, false, -1, 1, true⟩ 9 1 ((sort_hyps
            [⟨[9], [-1], (), [], [], (), Sum.inl 0, none⟩,
             ⟨[3], [-2], (), [], [], (), Sum.inl 0, none⟩]).take m)).length ≠ 2) :=
  beamWalk_ranked_spec ⟨2, 5, 0, false, -1, 1, true⟩ 9 1 _ [] []
    (by simp) (by simp)

theorem beamWalk_mem {σ α : Type} (cfg : Config) (stop_id : ℤ) (steps : ℕ) :
    ∀ (children hyps0 res0 : List (Hypothesis σ α)),
      (∀ x ∈ (beamWalk cfg stop_id steps children hyps0 res0).1,
        x ∈ hyps0 ∨ x ∈ children) ∧
      (∀ x ∈ (beamWalk cfg stop_id steps children hyps0 res0).2,
        x ∈ res0 ∨ x ∈ children) := by
  intro children
  induction children with
  | nil =>
    intro hyps0 res0
    constructor
    · intro x hx
      exact Or.inl hx
    · intro x hx
      exact Or.inl hx
  | cons c rest ih =>
    intro hyps0 res0
    have hmemh : ∀ x ∈ (if c.latest_token = stop_id then hyps0 else hyps0 ++ [c]),
        x ∈ hyps0 ∨ x ∈ c :: rest := by
      intro x hx
      by_cases hstop : c.latest_token = stop_id
      · rw [if_pos hstop] at hx
        exact Or.inl hx
      · rw [if_neg hstop] at hx
        rcases List.mem_append.mp hx with h | h
        · exact Or.inl h
        · right
          simp only [List.mem_singleton] at h
          simp [h]
    have hmemr : ∀ x ∈ (if c.latest_token = stop_id ∧ cfg.min_dec_steps ≤ steps
          then res0 ++ [c] else res0),
        x ∈ res0 ∨ x ∈ c :: rest := by
      intro x hx
      by_cases hcnd : c.latest_token = stop_id ∧ cfg.min_dec_steps ≤ steps
      · rw [if_pos hcnd] at hx
        rcases List.mem_append.mp hx with h | h
        · exact Or.inl h
        · right
          simp only [List.mem_singleton] at h
          simp [h]
      · rw [if_neg hcnd] at hx
        exact Or.inl hx
    have hunfold : beamWalk cfg stop_id steps (c :: rest) hyps0 res0
        = (if (if c.latest_token = stop_id then hyps0 else hyps0 ++ [c]).length
              = cfg.beam_size ∨
            (if c.latest_token = stop_id ∧ cfg.min_dec_steps ≤ steps then
              res0 ++ [c] else res0).length = cfg.beam_size then
            ((if c.latest_token = stop_id then hyps0 else hyps0 ++ [c]),
             (if c.latest_token = stop_id ∧ cfg.min_dec_steps ≤ steps then
               res0 ++ [c] else res0))
          else beamWalk cfg stop_id steps rest
            (if c.latest_token = stop_id then hyps0 else hyps0 ++ [c])
            (if c.latest_token = stop_id ∧ cfg.min_dec_steps ≤ steps then
              res0 ++ [c] else res0)) := rfl
    rw [hunfold]
    by_cases hbreak : (if c.latest_token = stop_id then hyps0
          else hyps0 ++ [c]).length = cfg.beam_size ∨
        (if c.latest_token = stop_id ∧ cfg.min_dec_steps ≤ steps then
          res0 ++ [c] else res0).length = cfg.beam_size
    · rw [if_pos hbreak]
      exact ⟨hmemh, hmemr⟩
    · rw [if_neg hbreak]
      obtain ⟨ih1, ih2⟩ := ih
        (if c.latest_token = stop_id then hyps0 else hyps0 ++ [c])
        (if c.latest_token = stop_id ∧ cfg.min_dec_steps ≤ steps then
          res0 ++ [c] else res0)
      constructor
      · intro x hx
        rcases ih1 x hx with h | h
        · exact hmemh x h
        · exact Or.inr (List.mem_cons_of_mem _ h)
      · intro x hx
        rcases ih2 x hx with h | h
        · exact hmemr x h
        · exact Or.inr (List.mem_cons_of_mem _ h)

theorem beamWalk_results_le {σ α : Type} (cfg : Config) (stop_id : ℤ)
    (steps : ℕ) :
    ∀ (children hyps0 res0 : List (Hypothesis σ α)),
      res0.length < cfg.beam_size →
      (beamWalk cfg stop_id steps children hyps0 res0).2.length
        ≤ cfg.beam_size := by
  intro children
  induction children with
  | nil =>
    intro hyps0 res0 h
    exact le_of_lt h
  | cons c rest ih =>
    intro hyps0 res0 h
    have hunfold : beamWalk cfg stop_id steps (c :: rest) hyps0 res0
        = (if (if c.latest_token = stop_id then hyps0 else hyps0 ++ [c]).length
              = cfg.beam_size ∨
            (if c.latest_token = stop_id ∧ cfg.min_dec_steps ≤ steps then
              res0 ++ [c] else res0).length = cfg.beam_size then
            ((if c.latest_token = stop_id then hyps0 else hyps0 ++ [c]),
             (if c.latest_token = stop_id ∧ cfg.min_dec_steps ≤ steps then
               res0 ++ [c] else res0))
          else beamWalk cfg stop_id steps rest
            (if c.latest_token = stop_id then hyps0 else hyps0 ++ [c])
            (if c.latest_token = stop_id ∧ cfg.min_dec_steps ≤ steps then
              res0 ++ [c] else res0)) := rfl
    rw [hunfold]
    have hres'le : (if c.latest_token = stop_id ∧ cfg.min_dec_steps ≤ steps then
        res0 ++ [c] else res0).length ≤ res0.length + 1 := by
      by_cases hcnd : c.latest_token = stop_id ∧ cfg.min_dec_steps ≤ steps
      · rw [if_pos hcnd]
        simp
      · rw [if_neg hcnd]
        omega
    by_cases hbreak : (if c.latest_token = stop_id then hyps0
          else hyps0 ++ [c]).length = cfg.beam_size ∨
        (if c.latest_token = stop_id ∧ cfg.min_dec_steps ≤ steps then
          res0 ++ [c] else res0).length = cfg.beam_size
    · rw [if_pos hbreak]
      dsimp only
      omega
    · rw [if_neg hbreak]
      push_neg at hbreak
      exact ih _ _ (by omega)

/-- Invariance principle for the decoding loop: any property preserved by one
loop-body iteration (under the loop guard) holds of the loop's final state,
and the final state fails the loop guard. -/
theorem bsLoop_invariant {σ α : Type} [Inhabited σ] [Inhabited α]
    (cfg : Config) (mdl : Model σ α) (importances : Option (List ℚ)) (nw : ℕ)
    (sentLens : List ℕ) (P : BState σ α → Prop)
    (hstep : ∀ st : BState σ α, st.steps < cfg.max_dec_steps →
      st.results.length < cfg.beam_size → P st →
      P (bsStep cfg mdl importances nw sentLens st)) :
    ∀ st : BState σ α, P st →
      P (bsLoop cfg mdl importances nw sentLens st) ∧
      ¬((bsLoop cfg mdl importances nw sentLens st).steps < cfg.max_dec_steps ∧
        (bsLoop cfg mdl importances nw sentLens st).results.length
          < cfg.beam_size) := by
  intro st
  generalize hk : cfg.max_dec_steps - st.steps = k
  induction k generalizing st with
  | zero =>
    intro hP
    rw [bsLoop]
    rw [dif_neg (by omega)]
    exact ⟨hP, by omega⟩
  | succ n ihn =>
    intro hP
    by_cases hc : st.steps < cfg.max_dec_steps ∧ st.results.length < cfg.beam_size
    · rw [bsLoop, dif_pos hc]
      exact ihn (bsStep cfg mdl importances nw sentLens st)
        (by rw [bsStep_steps]; omega) (hstep st hc.1 hc.2 hP)
    · rw [bsLoop, dif_neg hc]
      exact ⟨hP, hc⟩

theorem bsStep_results {σ α : Type} [Inhabited σ] [Inhabited α] (cfg : Config)
    (mdl : Model σ α) (importances : Option (List ℚ)) (nw : ℕ)
    (sentLens : List ℕ) (st : BState σ α) :
    (bsStep cfg mdl importances nw sentLens st).results
      = (beamWalk cfg mdl.stop_id st.steps
          (sort_hyps (fanOut cfg mdl nw sentLens st)) [] st.results).2 := rfl

theorem bsStep_hyps {σ α : Type} [Inhabited σ] [Inhabited α] (cfg : Config)
    (mdl : Model σ α) (importances : Option (List ℚ)) (nw : ℕ)
    (sentLens : List ℕ) (st : BState σ α) :
    (bsStep cfg mdl importances nw sentLens st).hyps
      = (if cfg.pg_mmr then
          ((beamWalk cfg mdl.stop_id st.steps
              (sort_hyps (fanOut cfg mdl nw sentLens st)) [] st.results).1).map
            (fun hyp =>
              if hyp.latest_token = mdl.period_id then
                update_similarity_and_mmr mdl cfg importances hyp
              else hyp)
        else (beamWalk cfg mdl.stop_id st.steps
            (sort_hyps (fanOut cfg mdl nw sentLens st)) [] st.results).1) := rfl

/-! ### Claim C2: loop termination -/

/-- Claim C2: the beam-search loop runs while `steps < max_dec_steps` and the
finished-results collection holds fewer than `beam_size` hypotheses; from any
state satisfying `steps <= max_dec_steps` and `len(results) <= beam_size` it
terminates with `steps <= max_dec_steps` (each iteration increments `steps`
by one, so at most `max_dec_steps` iterations run), and at exit either
`steps = max_dec_steps` or the results collection holds exactly `beam_size`
hypotheses — whichever occurred first (the loop body is never entered once
either exit condition holds). -/
theorem bsLoop_terminates {σ α : Type} [Inhabited σ] [Inhabited α]
    (cfg : Config) (mdl : Model σ α) (importances : Option (List ℚ)) (nw : ℕ)
    (sentLens : List ℕ) (st : BState σ α)
    (h1 : st.steps ≤ cfg.max_dec_steps)
    (h2 : st.results.length ≤ cfg.beam_size) :
    (bsLoop cfg mdl importances nw sentLens st).steps ≤ cfg.max_dec_steps ∧
    ((bsLoop cfg mdl importances nw sentLens st).steps = cfg.max_dec_steps ∨
      (bsLoop cfg mdl importances nw sentLens st).results.length
        = cfg.beam_size) := by
  have hinv := bsLoop_invariant cfg mdl importances nw sentLens
    (fun s => s.steps ≤ cfg.max_dec_steps ∧ s.results.length ≤ cfg.beam_size)
    (fun s hs hr hP => by
      constructor
      · rw [bsStep_steps]
        omega
      · rw [bsStep_results]
        exact beamWalk_results_le cfg mdl.stop_id s.steps _ [] s.results hr)
    st ⟨h1, h2⟩
  obtain ⟨⟨ha, hb⟩, hc⟩ := hinv
  push_neg at hc
  constructor
  · exact ha
  · by_cases hs : (bsLoop cfg mdl importances nw sentLens st).steps
        = cfg.max_dec_steps
    · exact Or.inl hs
    · right
      have := hc (by omega)
      omega

/-- Witness for `bsLoop_terminates`: beam width 1, two decode steps, trivial
model, run from the empty start state. -/
theorem bsLoop_terminates_witness :
    (bsLoop ⟨1, 2, 0, false, -1, 1, true⟩
        ⟨10, 0, 2, 3, 4, fun _ _ _ _ _ => ⟨[(1, 0), (1, 0)], (), (), 0, ()⟩,
          fun _ => []⟩ none 0 [] ⟨0, [], []⟩).steps ≤ 2 ∧
    ((bsLoop ⟨1, 2, 0, false, -1, 1, true⟩
        ⟨10, 0, 2, 3, 4, fun _ _ _ _ _ => ⟨[(1, 0), (1, 0)], (), (), 0, ()⟩,
          fun _ => []⟩ none 0 [] ⟨0, [], []⟩).steps = 2 ∨
      (bsLoop ⟨1, 2, 0, false, -1, 1, true⟩
        ⟨10, 0, 2, 3, 4, fun _ _ _ _ _ => ⟨[(1, 0), (1, 0)], (), (), 0, ()⟩,
          fun _ => []⟩ none 0 [] ⟨0, [], []⟩).results.length = 1) :=
  bsLoop_terminates _ _ none 0 [] _ (by norm_num) (by norm_num)

/-! ### Claim C3: fallback to the live beam; a best hypothesis always exists -/

theorem extend_latest_token {σ α : Type} (h : Hypothesis σ α) (token : ℤ)
    (log_prob : ℚ) (state : σ) (attn_dist : α) (p_gen : ℚ) (coverage : α)
    (mmr : Option (List ℚ)) :
    (h.extend token log_prob state attn_dist p_gen coverage mmr).latest_token
      = token := by
  simp [Hypothesis.extend, Hypothesis.make, Hypothesis.latest_token,
    List.getLastD_concat]

theorem fanOut_mem_mmr {σ α : Type} [Inhabited σ] [Inhabited α] (cfg : Config)
    (mdl : Model σ α) (nw : ℕ) (sentLens : List ℕ) (st : BState σ α)
    (hne : st.steps = 0 → st.hyps ≠ []) :
    ∀ c ∈ fanOut cfg mdl nw sentLens st, ∃ h ∈ st.hyps, c.mmr = h.mmr := by
  intro c hc
  simp only [fanOut, List.mem_flatMap, List.mem_map, List.mem_range] at hc
  obtain ⟨i, hi, j, hj, rfl⟩ := hc
  have hlen : i < st.hyps.length := by
    by_cases h0 : st.steps = 0
    · have h1 : st.hyps.length ≠ 0 :=
        fun h => (hne h0) (List.eq_nil_of_length_eq_zero h)
      simp only [num_orig_hyps, h0, if_pos] at hi
      omega
    · simpa [num_orig_hyps, h0] using hi
  refine ⟨st.hyps.getD i default, ?_, rfl⟩
  rw [List.getD_eq_getElem _ _ hlen]
  exact List.getElem_mem _

theorem fanOut_child_mem {σ α : Type} [Inhabited σ] [Inhabited α]
    (cfg : Config) (mdl : Model σ α) (nw : ℕ) (sentLens : List ℕ)
    (st : BState σ α) (hne : st.hyps ≠ []) (j : ℕ)
    (hj : j < cfg.beam_size * 2) :
    (st.hyps.getD 0 default).extend
        ((stepOut cfg mdl nw sentLens st 0).topk.getD j (0, 0)).1
        ((stepOut cfg mdl nw sentLens st 0).topk.getD j (0, 0)).2
        (stepOut cfg mdl nw sentLens st 0).new_state
        (stepOut cfg mdl nw sentLens st 0).attn_dist
        (stepOut cfg mdl nw sentLens st 0).p_gen
        (stepOut cfg mdl nw sentLens st 0).new_coverage
        (st.hyps.getD 0 default).mmr
      ∈ fanOut cfg mdl nw sentLens st := by
  simp only [fanOut, List.mem_flatMap, List.mem_range]
  refine ⟨0, ?_, ?_⟩
  · have hlen : st.hyps.length ≠ 0 :=
      fun h => hne (List.eq_nil_of_length_eq_zero h)
    simp only [num_orig_hyps]
    by_cases h0 : st.steps = 0
    · simp [h0]
    · simp only [h0, if_false]
      omega
  · simp only [List.mem_map, List.mem_range]
    exact ⟨j, hj, rfl⟩

theorem sort_hyps_ne_nil {σ α : Type} {l : List (Hypothesis σ α)}
    (h : l ≠ []) : sort_hyps l ≠ [] := by
  intro hc
  apply h
  have hlen := List.length_insertionSort (@hyp_ge σ α) l
  rw [show List.insertionSort hyp_ge l = sort_hyps l from rfl, hc] at hlen
  exact List.eq_nil_of_length_eq_zero hlen.symm

/-- Claim C3: if the beam-search loop exits with zero finished hypotheses,
the live beam becomes the result set (lines 374-375), and — provided every
decoder call offers each parent at least one non-stop candidate, as a real
top-`2*beam_size` decoder does — `run_beam_search` always returns a best
hypothesis: selection never sees an empty result set. -/
theorem run_beam_search_total {σ α : Type} [Inhabited σ] [Inhabited α]
    (cfg : Config) (mdl : Model σ α) (dec_in_state : σ) (init_coverage : α)
    (importances : Option (List ℚ)) (nw : ℕ) (sentLens : List ℕ)
    (hbeam : 1 ≤ cfg.beam_size)
    (hmodel : ∀ (lts : List ℤ) (sts : List σ) (covs : List α)
      (mmrs : List (Option (List ℚ))) (i : ℕ), ∃ j, j < cfg.beam_size * 2 ∧
      ((mdl.decode lts sts covs mmrs i).topk.getD j (0, 0)).1 ≠ mdl.stop_id) :
    ((bs_final cfg mdl dec_in_state init_coverage importances nw
        sentLens).results = [] →
      run_beam_search cfg mdl dec_in_state init_coverage importances nw sentLens
        = (sort_hyps (bs_final cfg mdl dec_in_state init_coverage importances nw
            sentLens).hyps).head?) ∧
    (run_beam_search cfg mdl dec_in_state init_coverage importances nw
      sentLens).isSome = true := by
  constructor
  · intro h
    simp [run_beam_search, h]
  · have hinv := bsLoop_invariant cfg mdl importances nw sentLens
      (fun s => s.hyps ≠ [] ∨ cfg.beam_size ≤ s.results.length)
      (fun s hs hr hP => by
        have hne : s.hyps ≠ [] := by
          rcases hP with h | h
          · exact h
          · omega
        obtain ⟨n, hnle, heq, hdisj, hmin⟩ := beamWalk_spec cfg mdl.stop_id
          s.steps (sort_hyps (fanOut cfg mdl nw sentLens s)) [] s.results
          (by simpa using hbeam) hr
        rcases hdisj with hd | hd | hd
        · left
          rw [bsStep_hyps, heq]
          have hX : (([] : List (Hypothesis σ α)) ++ liveFilter mdl.stop_id
              ((sort_hyps (fanOut cfg mdl nw sentLens s)).take n)) ≠ [] := by
            intro hcontra
            rw [hcontra] at hd
            simp at hd
            omega
          by_cases hpg : cfg.pg_mmr
          · simp only [hpg, if_true]
            simpa using hX
          · simp only [hpg, if_false]
            exact hX
        · right
          rw [bsStep_results, heq]
          dsimp only
          omega
        · left
          obtain ⟨j0, hj0, hnstop⟩ := hmodel (stepTokens mdl s)
            (s.hyps.map (fun h => h.state)) (s.hyps.map (fun h => h.coverage))
            (stepMmrWords cfg nw sentLens s) 0
          have hc0 : (s.hyps.getD 0 default).extend
              ((stepOut cfg mdl nw sentLens s 0).topk.getD j0 (0, 0)).1
              ((stepOut cfg mdl nw sentLens s 0).topk.getD j0 (0, 0)).2
              (stepOut cfg mdl nw sentLens s 0).new_state
              (stepOut cfg mdl nw sentLens s 0).attn_dist
              (stepOut cfg mdl nw sentLens s 0).p_gen
              (stepOut cfg mdl nw sentLens s 0).new_coverage
              (s.hyps.getD 0 default).mmr
              ∈ fanOut cfg mdl nw sentLens s :=
            fanOut_child_mem cfg mdl nw sentLens s hne j0 hj0
          have hcsort : (s.hyps.getD 0 default).extend
              ((stepOut cfg mdl nw sentLens s 0).topk.getD j0 (0, 0)).1
              ((stepOut cfg mdl nw sentLens s 0).topk.getD j0 (0, 0)).2
              (stepOut cfg mdl nw sentLens s 0).new_state
              (stepOut cfg mdl nw sentLens s 0).attn_dist
              (stepOut cfg mdl nw sentLens s 0).p_gen
              (stepOut cfg mdl nw sentLens s 0).new_coverage
              (s.hyps.getD 0 default).mmr
              ∈ sort_hyps (fanOut cfg mdl nw sentLens s) :=
            (List.mem_insertionSort hyp_ge).mpr hc0
          have hlive : (s.hyps.getD 0 default).extend
              ((stepOut cfg mdl nw sentLens s 0).topk.getD j0 (0, 0)).1
              ((stepOut cfg mdl nw sentLens s 0).topk.getD j0 (0, 0)).2
              (stepOut cfg mdl nw sentLens s 0).new_state
              (stepOut cfg mdl nw sentLens s 0).attn_dist
              (stepOut cfg mdl nw sentLens s 0).p_gen
              (stepOut cfg mdl nw sentLens s 0).new_coverage
              (s.hyps.getD 0 default).mmr
              ∈ liveFilter mdl.stop_id
                ((sort_hyps (fanOut cfg mdl nw sentLens s)).take n) := by
            rw [hd, List.take_length]
            simp only [liveFilter, List.mem_filter]
            refine ⟨hcsort, ?_⟩
            rw [extend_latest_token]
            simpa using hnstop
          rw [bsStep_hyps, heq]
          have hX : (([] : List (Hypothesis σ α)) ++ liveFilter mdl.stop_id
              ((sort_hyps (fanOut cfg mdl nw sentLens s)).take n)) ≠ [] := by
            intro hcontra
            rw [List.nil_append] at hcontra
            rw [hcontra] at hlive
            exact absurd hlive (List.not_mem_nil _)
          by_cases hpg : cfg.pg_mmr
          · simp only [hpg, if_true]
            simpa using hX
          · simp only [hpg, if_false]
            exact hX)
      ⟨0, init_hyps cfg mdl dec_in_state init_coverage importances, []⟩
      (by
        left
        show init_hyps cfg mdl dec_in_state init_coverage importances ≠ []
        intro hcontra
        have hl : (init_hyps cfg mdl dec_in_state init_coverage
            importances).length = cfg.beam_size := by
          simp [init_hyps]
        rw [hcontra] at hl
        simp at hl
        omega)
    obtain ⟨hP, hguard⟩ := hinv
    have hsel : (if (bs_final cfg mdl dec_in_state init_coverage importances nw
        sentLens).results.isEmpty then
          (bs_final cfg mdl dec_in_state init_coverage importances nw
            sentLens).hyps
        else (bs_final cfg mdl dec_in_state init_coverage importances nw
            sentLens).results) ≠ [] := by
      by_cases hres : (bs_final cfg mdl dec_in_state init_coverage importances
          nw sentLens).results = []
      · rw [hres]
        simp only [List.isEmpty_nil, if_true]
        rcases hP with h | h
        · exact h
        · rw [bs_final] at hres
          rw [hres] at h
          simp at h
          omega
      · have : (bs_final cfg mdl dec_in_state init_coverage importances nw
            sentLens).results.isEmpty = false := by
          simpa [List.isEmpty_iff] using hres
        rw [this]
        simpa using hres
    have hsort := sort_hyps_ne_nil hsel
    obtain ⟨x, xs, hx⟩ := List.exists_cons_of_ne_nil hsort
    show ((sort_hyps (if (bs_final cfg mdl dec_in_state init_coverage
        importances nw sentLens).results.isEmpty then _ else _)).head?).isSome
        = true
    rw [hx]
    rfl

/-- Witness for `run_beam_search_total`: beam width 1, one decode step, a
decoder that always offers the non-stop token `1`. -/
theorem run_beam_search_total_witness :
    ((bs_final ⟨1, 1, 0, false, -1, 1, true⟩
        ⟨10, 0, 2, 3, 4, fun _ _ _ _ _ => ⟨[(1, 0), (1, 0)], (), (), 0, ()⟩,
          fun _ => []⟩ () () none 0 []).results = [] →
      run_beam_search ⟨1, 1, 0, false, -1, 1, true⟩
        ⟨10, 0, 2, 3, 4, fun _ _ _ _ _ => ⟨[(1, 0), (1, 0)], (), (), 0, ()⟩,
          fun _ => []⟩ () () none 0 []
        = (sort_hyps (bs_final ⟨1, 1, 0, false, -1, 1, true⟩
            ⟨10, 0, 2, 3, 4, fun _ _ _ _ _ => ⟨[(1, 0), (1, 0)], (), (), 0, ()⟩,
              fun _ => []⟩ () () none 0 []).hyps).head?) ∧
    (run_beam_search ⟨1, 1, 0, false, -1, 1, true⟩
        ⟨10, 0, 2, 3, 4, fun _ _ _ _ _ => ⟨[(1, 0), (1, 0)], (), (), 0, ()⟩,
          fun _ => []⟩ () () none 0 []).isSome = true :=
  run_beam_search_total ⟨1, 1, 0, false, -1, 1, true⟩
    ⟨10, 0, 2, 3, 4, fun _ _ _ _ _ => ⟨[(1, 0), (1, 0)], (), (), 0, ()⟩,
      fun _ => []⟩ () () none 0 [] (by norm_num)
    (fun lts sts covs mmrs i => ⟨0, by norm_num, (by decide : (1 : ℤ) ≠ 2)⟩)

/-! ### Claim C9: lambda = 1 keeps mmr equal to the importance vector -/

theorem calc_mmr_lambda_one (s imp : List ℚ) (hlen : s.length = imp.length)
    (himp : ∀ x ∈ imp, 0 ≤ x) :
    calc_mmr_from_sim_and_imp 1 s imp = imp := by
  apply List.ext_getElem
  · simp [calc_mmr_from_sim_and_imp, hlen]
  · intro i h1 h2
    simp only [calc_mmr_from_sim_and_imp, List.getElem_map, List.getElem_zipWith]
    have harith : (1 : ℚ) * imp[i] - (1 - 1) * s[i] = imp[i] := by ring
    rw [harith]
    exact max_eq_left (himp _ (List.getElem_mem _))

/-- The claim-C9 invariant: every live and every finished hypothesis carries
`mmr = importances` (the technical third conjunct records that the beam is
non-empty until the first fan-out has happened). -/
def MmrInv {σ α : Type} (imp : List ℚ) (st : BState σ α) : Prop :=
  (∀ h ∈ st.hyps, h.mmr = some imp) ∧
  (∀ h ∈ st.results, h.mmr = some imp) ∧
  (st.steps = 0 → st.hyps ≠ [])

/-- Claim C9: with diversity mode on and `lambda_val = 1`, for a nonnegative
per-sentence importance vector, every hypothesis's `mmr` equals the fixed
importance vector at all times: the initial beam starts with
`mmr_init = importances`, and the property is an invariant of the decoding
loop — children inherit it at fan-out and every sentence-completion
recomputation returns exactly `importances` regardless of the generated text
and the computed similarities. -/
theorem mmr_equals_importances_when_lambda_one {σ α : Type} [Inhabited σ]
    [Inhabited α] (cfg : Config) (mdl : Model σ α) (dec_in_state : σ)
    (init_coverage : α) (nw : ℕ) (sentLens : List ℕ) (imp : List ℚ)
    (hpg : cfg.pg_mmr = true) (hlam : cfg.lambda_val = 1)
    (himp : ∀ x ∈ imp, 0 ≤ x)
    (hsim : ∀ toks : List ℤ, (mdl.sim toks).length = imp.length) :
    (∀ h ∈ init_hyps cfg mdl dec_in_state init_coverage (some imp),
      h.mmr = some imp) ∧
    (∀ st : BState σ α, MmrInv imp st →
      MmrInv imp (bsLoop cfg mdl (some imp) nw sentLens st)) := by
  constructor
  · intro h hh
    simp only [init_hyps, List.mem_map, List.mem_range] at hh
    obtain ⟨i, _, rfl⟩ := hh
    rfl
  · intro st hst
    refine (bsLoop_invariant cfg mdl (some imp) nw sentLens (MmrInv imp)
      (fun s hs hr hP => ?_) st hst).1
    obtain ⟨hPh, hPr, hP0⟩ := hP
    have hchild : ∀ c ∈ fanOut cfg mdl nw sentLens s, c.mmr = some imp := by
      intro c hc
      obtain ⟨h, hmem, hmmr⟩ := fanOut_mem_mmr cfg mdl nw sentLens s hP0 c hc
      rw [hmmr]
      exact hPh h hmem
    have hsorted : ∀ c ∈ sort_hyps (fanOut cfg mdl nw sentLens s),
        c.mmr = some imp := by
      intro c hc
      exact hchild c ((List.mem_insertionSort hyp_ge).mp hc)
    obtain ⟨hw1, hw2⟩ := beamWalk_mem cfg mdl.stop_id s.steps
      (sort_hyps (fanOut cfg mdl nw sentLens s)) [] s.results
    refine ⟨?_, ?_, ?_⟩
    · intro h hh
      rw [bsStep_hyps] at hh
      rw [hpg, if_pos rfl] at hh
      obtain ⟨h0, hm0, rfl⟩ := List.mem_map.mp hh
      have hh0 : h0.mmr = some imp := by
        rcases hw1 h0 hm0 with hmem | hmem
        · exact absurd hmem (List.not_mem_nil _)
        · exact hsorted h0 hmem
      by_cases hper : h0.latest_token = mdl.period_id
      · rw [if_pos hper]
        show some (calc_mmr_from_sim_and_imp cfg.lambda_val (mdl.sim h0.tokens)
          ((some imp).getD [])) = some imp
        simp only [Option.getD_some]
        rw [hlam]
        exact congrArg some (calc_mmr_lambda_one _ _ (hsim h0.tokens) himp)
      · rw [if_neg hper]
        exact hh0
    · intro h hh
      rw [bsStep_results] at hh
      rcases hw2 h hh with hmem | hmem
      · exact hPr h hmem
      · exact hsorted h hmem
    · intro h0step
      rw [bsStep_steps] at h0step
      omega

/-- Witness for `mmr_equals_importances_when_lambda_one`: lambda = 1, one
source sentence with importance 2, a similarity scorer returning `[0]`. -/
theorem mmr_equals_importances_when_lambda_one_witness :
    (∀ h ∈ init_hyps ⟨1, 1, 1, true, -1, 1, true⟩
        ⟨10, 0, 2, 3, 4, fun _ _ _ _ _ => ⟨[(1, 0), (1, 0)], (), (), 0, ()⟩,
          fun _ => [0]⟩ () () (some [2]), h.mmr = some [2]) ∧
    (∀ st : BState Unit Unit, MmrInv [2] st →
      MmrInv [2] (bsLoop ⟨1, 1, 1, true, -1, 1, true⟩
        ⟨10, 0, 2, 3, 4, fun _ _ _ _ _ => ⟨[(1, 0), (1, 0)], (), (), 0, ()⟩,
          fun _ => [0]⟩ (some [2]) 3 [1] st)) :=
  mmr_equals_importances_when_lambda_one ⟨1, 1, 1, true, -1, 1, true⟩
    ⟨10, 0, 2, 3, 4, fun _ _ _ _ _ => ⟨[(1, 0), (1, 0)], (), (), 0, ()⟩,
      fun _ => [0]⟩ () () 3 [1] [2] rfl rfl
    (by
      intro x hx
      simp only [List.mem_singleton] at hx
      rw [hx]
      norm_num)
    (fun _ => rfl)

/-! ### Claim C5: the source gate (top-k muting) -/

theorem length_filter_range_getD (v : List ℚ) (q : ℚ → Bool) :
    ((List.range v.length).filter (fun i => q (v.getD i 0))).length
      = (v.filter q).length := by
  induction v with
  | nil => simp
  | cons a t ih =>
    have hmapfil : ((List.map Nat.succ (List.range t.length)).filter
        (fun i => q ((a :: t).getD i 0))).length
        = ((List.range t.length).filter (fun i => q (t.getD i 0))).length := by
      rw [List.filter_map, List.length_map]
      apply congrArg
      apply List.filter_congr
      intro i _
      simp [Function.comp, List.getD_cons_succ]
    rw [List.length_cons, List.range_succ_eq_map, List.filter_cons,
      List.filter_cons]
    by_cases hq : q a
    · rw [if_pos (by simpa using hq), if_pos hq, List.length_cons,
        List.length_cons, hmapfil, ih]
    · rw [if_neg (by simpa using hq), if_neg hq, hmapfil, ih]

theorem mute_length (cfg : Config) (array : List ℚ) (k : ℕ) :
    (mute_all_except_top_k cfg array k).length = array.length := by
  simp [mute_all_except_top_k]

theorem mute_getD (cfg : Config) (array : List ℚ) (k : ℕ) (i : ℕ)
    (hi : i < array.length) :
    (mute_all_except_top_k cfg array k).getD i 0
      = if i ∈ (if (array.filter (fun x => decide (0 < x))).length < k then
            (List.range array.length).filter
              (fun j => decide (array.getD j 0 ≠ 0))
          else ((argsort array).reverse).take k) then
          (if cfg.retain_mmr_values then array.getD i 0 else 1)
        else 0 := by
  rw [List.getD_eq_getElem _ _ (by rw [mute_length]; exact hi)]
  simp only [mute_all_except_top_k, List.getElem_map, List.getElem_range]

/-- Claim C5 counterexample: on a vector with a negative entry the function
does not return "exactly the positive entries, zero everywhere else":
`np.sum(array > 0)` counts no strictly positive entry of `[-1]`, so the
under-`k` branch selects `np.nonzero` — the NON-zero positions — and retains
the negative entry `-1` at position 0, where the claim requires `[0]`. -/
theorem mute_counterexample :
    mute_all_except_top_k ⟨1, 1, 0, true, 1, 1, true⟩ [-1] 1 = [-1] ∧
    mute_all_except_top_k ⟨1, 1, 0, true, 1, 1, true⟩ [-1] 1 ≠ [0] := by
  constructor
  · decide
  · decide

/-- Claim C5 (amended): for every NONNEGATIVE score vector `v` (the gate's
input is a clamped MMR vector) and every `k`, the result has `v`'s length and
at most `k` non-zero entries; if the number of strictly positive entries is
less than `k`, exactly the strictly-positive positions are retained (each set
to its original value in retain-magnitude mode or to `1` in binary-mask mode,
zero everywhere else); otherwise some `k` positions whose values dominate all
the other positions are retained, with the same per-mode values. -/
theorem mute_all_except_top_k_spec (cfg : Config) (array : List ℚ) (k : ℕ)
    (hnn : ∀ x ∈ array, 0 ≤ x) :
    (mute_all_except_top_k cfg array k).length = array.length ∧
    ((List.range array.length).filter
      (fun i => decide ((mute_all_except_top_k cfg array k).getD i 0
        ≠ 0))).length ≤ k ∧
    ((array.filter (fun x => decide (0 < x))).length < k →
      ∀ i, i < array.length →
        (mute_all_except_top_k cfg array k).getD i 0
          = if 0 < array.getD i 0 then
              (if cfg.retain_mmr_values then array.getD i 0 else 1)
            else 0) ∧
    (k ≤ (array.filter (fun x => decide (0 < x))).length →
      ∃ S : List ℕ, S.Nodup ∧ S.length = k ∧ (∀ i ∈ S, i < array.length) ∧
        (∀ i ∈ S, ∀ j, j < array.length → j ∉ S →
          array.getD j 0 ≤ array.getD i 0) ∧
        (∀ i, i < array.length →
          (mute_all_except_top_k cfg array k).getD i 0
            = if i ∈ S then
                (if cfg.retain_mmr_values then array.getD i 0 else 1)
              else 0)) := by
  have hnn' : ∀ i, i < array.length → 0 ≤ array.getD i 0 := by
    intro i hi
    rw [List.getD_eq_getElem _ _ hi]
    exact hnn _ (List.getElem_mem _)
  by_cases hcase : (array.filter (fun x => decide (0 < x))).length < k
  · refine ⟨mute_length cfg array k, ?_, ?_, fun hk => absurd hk (by omega)⟩
    · have hsub : ∀ i ∈ (List.range array.length).filter
          (fun i => decide ((mute_all_except_top_k cfg array k).getD i 0 ≠ 0)),
          i ∈ (List.range array.length).filter
            (fun j => decide (array.getD j 0 ≠ 0)) := by
        intro i hi
        rw [List.mem_filter] at hi ⊢
        obtain ⟨hir, hval⟩ := hi
        refine ⟨hir, ?_⟩
        have hilt : i < array.length := List.mem_range.mp hir
        by_contra hzero
        rw [mute_getD cfg array k i hilt, if_pos hcase] at hval
        have hnotmem : i ∉ (List.range array.length).filter
            (fun j => decide (array.getD j 0 ≠ 0)) := by
          rw [List.mem_filter]
          intro hmem
          exact hzero hmem.2
        rw [if_neg hnotmem] at hval
        simp at hval
      have hlenf := length_filter_range_getD array (fun x => decide (x ≠ 0))
      have hfeq : (array.filter (fun x => decide (x ≠ 0))).length
          = (array.filter (fun x => decide (0 < x))).length := by
        congr 1
        apply List.filter_congr
        intro x hx
        have h0 := hnn x hx
        by_cases hx0 : x = 0
        · simp [hx0]
        · have hpos : 0 < x := lt_of_le_of_ne h0 (Ne.symm hx0)
          simp [hx0, hpos]
      have hnodup : ((List.range array.length).filter
          (fun i => decide ((mute_all_except_top_k cfg array k).getD i 0
            ≠ 0))).Nodup :=
        (List.nodup_range _).filter _
      have hle := (hnodup.subperm hsub).length_le
      omega
    · intro _ i hi
      rw [mute_getD cfg array k i hi, if_pos hcase]
      by_cases hpos : 0 < array.getD i 0
      · rw [if_pos hpos, if_pos (List.mem_filter.mpr
          ⟨List.mem_range.mpr hi, by simpa using ne_of_gt hpos⟩)]
      · have hz : ¬(array.getD i 0 ≠ 0) := by
          have := hnn' i hi
          intro hne
          exact hne (le_antisymm (not_lt.mp hpos) this)
        rw [if_neg hpos, if_neg (fun hmem =>
          hz (by simpa using (List.mem_filter.mp hmem).2))]
  · have hk : k ≤ (array.filter (fun x => decide (0 < x))).length :=
      not_lt.mp hcase
    have hnum_le : (array.filter (fun x => decide (0 < x))).length
        ≤ array.length := List.length_filter_le _ _
    have hlen_rev : ((argsort array).reverse).length = array.length := by
      rw [List.length_reverse, argsort, List.length_insertionSort,
        List.length_range]
    have hperm : ((argsort array).reverse).Perm (List.range array.length) :=
      (List.reverse_perm _).trans (List.perm_insertionSort _ _)
    have hSnodup : (((argsort array).reverse).take k).Nodup :=
      List.Nodup.sublist (List.take_sublist _ _)
        (hperm.symm.nodup (List.nodup_range _))
    have hSlen : (((argsort array).reverse).take k).length = k := by
      rw [List.length_take, hlen_rev]
      exact Nat.min_eq_left (by omega)
    have hSmem_lt : ∀ i ∈ ((argsort array).reverse).take k,
        i < array.length := by
      intro i hi
      have hmem : i ∈ List.range array.length :=
        hperm.mem_iff.mp ((List.take_sublist _ _).subset hi)
      simpa using hmem
    haveI : IsTotal ℕ (fun i j => array.getD i 0 ≤ array.getD j 0) :=
      ⟨fun i j => le_total _ _⟩
    haveI : IsTrans ℕ (fun i j => array.getD i 0 ≤ array.getD j 0) :=
      ⟨fun a b c h1 h2 => le_trans h1 h2⟩
    have hsorted : List.Pairwise (fun i j => array.getD i 0 ≤ array.getD j 0)
        (argsort array) :=
      List.sorted_insertionSort _ _
    have hrevpair : List.Pairwise
        (fun i j => array.getD j 0 ≤ array.getD i 0)
        ((argsort array).reverse) :=
      List.pairwise_reverse.mpr hsorted
    have hdom : ∀ i ∈ ((argsort array).reverse).take k, ∀ j,
        j < array.length → j ∉ ((argsort array).reverse).take k →
        array.getD j 0 ≤ array.getD i 0 := by
      intro i hi j hj hjnot
      have hrev_eq : ((argsort array).reverse).take k
          ++ ((argsort array).reverse).drop k = (argsort array).reverse :=
        List.take_append_drop k _
      have hpair2 := hrevpair
      rw [← hrev_eq] at hpair2
      obtain ⟨_, _, hcross⟩ := List.pairwise_append.mp hpair2
      have hjrev : j ∈ (argsort array).reverse :=
        hperm.mem_iff.mpr (List.mem_range.mpr hj)
      rw [← hrev_eq] at hjrev
      rcases List.mem_append.mp hjrev with hc2 | hc2
      · exact absurd hc2 hjnot
      · exact hcross i hi j hc2
    have hpt : ∀ i, i < array.length →
        (mute_all_except_top_k cfg array k).getD i 0
          = if i ∈ ((argsort array).reverse).take k then
              (if cfg.retain_mmr_values then array.getD i 0 else 1)
            else 0 := by
      intro i hi
      rw [mute_getD cfg array k i hi, if_neg hcase]
    refine ⟨mute_length cfg array k, ?_, fun hlt => absurd hlt (by omega),
      fun _ => ⟨((argsort array).reverse).take k, hSnodup, hSlen, hSmem_lt,
        hdom, hpt⟩⟩
    have hsub : ∀ i ∈ (List.range array.length).filter
        (fun i => decide ((mute_all_except_top_k cfg array k).getD i 0 ≠ 0)),
        i ∈ ((argsort array).reverse).take k := by
      intro i hi
      rw [List.mem_filter] at hi
      obtain ⟨hir, hval⟩ := hi
      have hilt : i < array.length := List.mem_range.mp hir
      by_contra hnot
      rw [hpt i hilt, if_neg hnot] at hval
      simp at hval
    have hnodup : ((List.range array.length).filter
        (fun i => decide ((mute_all_except_top_k cfg array k).getD i 0
          ≠ 0))).Nodup :=
      (List.nodup_range _).filter _
    have hle := (hnodup.subperm hsub).length_le
    omega

/-- Witness for `mute_all_except_top_k_spec`: `v = [2, 0, 3]`, `k = 1`
(the top-`k` branch), retain-magnitude mode. -/
theorem mute_all_except_top_k_spec_witness :
    (mute_all_except_top_k ⟨1, 1, 0, true, 1, 1, true⟩ [2, 0, 3] 1).length
        = ([2, 0, 3] : List ℚ).length ∧
    ((List.range ([2, 0, 3] : List ℚ).length).filter
      (fun i => decide ((mute_all_except_top_k ⟨1, 1, 0, true, 1, 1, true⟩
        [2, 0, 3] 1).getD i 0 ≠ 0))).length ≤ 1 ∧
    ((([2, 0, 3] : List ℚ).filter (fun x => decide (0 < x))).length < 1 →
      ∀ i, i < ([2, 0, 3] : List ℚ).length →
        (mute_all_except_top_k ⟨1, 1, 0, true, 1, 1, true⟩
            [2, 0, 3] 1).getD i 0
          = if 0 < ([2, 0, 3] : List ℚ).getD i 0 then
              (if (⟨1, 1, 0, true, 1, 1, true⟩ : Config).retain_mmr_values then
                ([2, 0, 3] : List ℚ).getD i 0 else 1)
            else 0) ∧
    (1 ≤ (([2, 0, 3] : List ℚ).filter (fun x => decide (0 < x))).length →
      ∃ S : List ℕ, S.Nodup ∧ S.length = 1 ∧
        (∀ i ∈ S, i < ([2, 0, 3] : List ℚ).length) ∧
        (∀ i ∈ S, ∀ j, j < ([2, 0, 3] : List ℚ).length → j ∉ S →
          ([2, 0, 3] : List ℚ).getD j 0 ≤ ([2, 0, 3] : List ℚ).getD i 0) ∧
        (∀ i, i < ([2, 0, 3] : List ℚ).length →
          (mute_all_except_top_k ⟨1, 1, 0, true, 1, 1, true⟩
              [2, 0, 3] 1).getD i 0
            = if i ∈ S then
                (if (⟨1, 1, 0, true, 1, 1, true⟩ : Config).retain_mmr_values
                  then ([2, 0, 3] : List ℚ).getD i 0 else 1)
              else 0)) :=
  mute_all_except_top_k_spec ⟨1, 1, 0, true, 1, 1, true⟩ [2, 0, 3] 1
    (by decide)

end BeamSearchPy
